import Mathlib

/-!
# Verification of the lexicon field-book import core

Shallow embedding of the entry-normalization and document-import pipeline of
the `linguist-lexicon-field-book` repository.  Python strings are modelled as
`List Char` (ASCII fragment); Python dicts as insertion-ordered association
lists; fallible file loading as an explicit outcome type.

Sources embedded:
* `src/src/utils.py` — `normalize_timestamp`
* `src/src/docx_import.py` — `_safe_header`, `_str`, `extract_tables_as_dicts`,
  `map_row_to_entry` (with its inner `pick`)
* `src/src/storage_json.py` — `load_entries`
* `src/app.py` — the inline "Import from Tables" merge (called `importBatch`
  below, after the design document's name for it)
-/

namespace FieldBook

/-! ## Python string primitives over `List Char` -/

/-- The whitespace characters recognised by Python's `str.strip()`
(ASCII fragment: space, tab, newline, carriage return, vertical tab,
form feed). -/
def pyIsSpace (c : Char) : Bool :=
  c == ' ' || c == '\t' || c == '\n' || c == '\r' || c == '\x0b' || c == '\x0c'

/-- Python `s.strip()`: drop leading and trailing whitespace. -/
def pyStrip (s : List Char) : List Char :=
  ((s.dropWhile pyIsSpace).reverse.dropWhile pyIsSpace).reverse

/-- Python `s.strip(chars)`: drop leading and trailing characters drawn from
the given set. -/
def pyStripSet (set : List Char) (s : List Char) : List Char :=
  ((s.dropWhile set.contains).reverse.dropWhile set.contains).reverse

/-- Python `s.isdigit()` (ASCII fragment): nonempty and all decimal digits. -/
def pyIsDigitStr (s : List Char) : Bool :=
  !s.isEmpty && s.all Char.isDigit

/-- Python `s.lower()` (ASCII fragment). -/
def pyLower (s : List Char) : List Char :=
  s.map Char.toLower

/-- Prepend a character to the first piece of a split. -/
def consHead (c : Char) : List (List Char) → List (List Char)
  | [] => [[c]]
  | p :: ps => (c :: p) :: ps

/-- Python `s.split(sep)` for a single-character separator.  On the empty
string it returns `[""]`, exactly as Python does. -/
def splitSep (sep : Char) : List Char → List (List Char)
  | [] => [[]]
  | c :: cs => if c = sep then [] :: splitSep sep cs else consHead c (splitSep sep cs)

/-- Python `sep.join(parts)` for a single-character separator. -/
def joinSep (sep : Char) : List (List Char) → List Char
  | [] => []
  | [p] => p
  | p :: q :: ps => p ++ sep :: joinSep sep (q :: ps)

/-- Python `s.zfill(w)`: left-pad with `'0'` to width `w`, inserting the
padding after a leading sign character if there is one. -/
def zfill (w : Nat) (s : List Char) : List Char :=
  if w ≤ s.length then s
  else
    let pad := List.replicate (w - s.length) '0'
    match s with
    | [] => pad
    | c :: rest => if c = '+' ∨ c = '-' then c :: (pad ++ rest) else pad ++ s

/-- Decimal rendering of a natural number, digit by digit.  A fuel of
`n + 1` always suffices because `n` has at most `n + 1` decimal digits. -/
def natToStrAux : Nat → Nat → List Char
  | 0, _ => []
  | fuel + 1, n =>
    if n < 10 then [Nat.digitChar n]
    else natToStrAux fuel (n / 10) ++ [Nat.digitChar (n % 10)]

/-- Python `str(n)` for a natural number. -/
def natToStr (n : Nat) : List Char :=
  natToStrAux (n + 1) n

/-- Python `int(s)` on a digit string. -/
def natFromDigits (s : List Char) : Nat :=
  s.foldl (fun n c => 10 * n + (c.toNat - 48)) 0

/-- Python `"%02d" % n`: decimal rendering left-padded to width 2. -/
def pad02 (n : Nat) : List Char :=
  if n < 10 then '0' :: natToStr n else natToStr n

/-- Python `str(timedelta(seconds = total))` for a nonnegative number of
seconds and zero microseconds: `h:mm:ss`, preceded by `"<d> day, "` or
`"<d> days, "` when `total` reaches a full day. -/
def timedeltaStr (total : Nat) : List Char :=
  let days := total / 86400
  let secs := total % 86400
  let mm0 := secs / 60
  let ss := secs % 60
  let hh := mm0 / 60
  let mm := mm0 % 60
  let base := natToStr hh ++ ':' :: (pad02 mm ++ ':' :: pad02 ss)
  if days = 0 then base
  else
    natToStr days ++
      (if days = 1 then (" day, ").toList else (" days, ").toList) ++ base

/-! ## `normalize_timestamp` (src/src/utils.py) -/

/-- The two-character string `"00"`. -/
def zeroZero : List Char := ['0', '0']

/-- The non-digit branch of `normalize_timestamp`: split on `':'`, zero-fill
every field to width 2, prepend an hours field `"00"` when exactly two fields
resulted, and keep the last three fields. -/
def nonDigitBranch (t : List Char) : List Char :=
  let parts := (splitSep ':' t).map (zfill 2)
  let parts2 := if parts.length = 2 then zeroZero :: parts else parts
  joinSep ':' (parts2.drop (parts2.length - 3))

/-- `normalize_timestamp` from `src/src/utils.py`: empty input is returned
unchanged, a stripped all-digit input is rendered as a `timedelta`, anything
else goes through the split/zfill/rejoin branch. -/
def normalize_timestamp (ts : List Char) : List Char :=
  if ts.isEmpty then []
  else if pyIsDigitStr (pyStrip ts) then timedeltaStr (natFromDigits (pyStrip ts))
  else nonDigitBranch (pyStrip ts)

/-! ## Python dicts as insertion-ordered association lists -/

/-- A Python dict with string keys and string values, as built by the import
pipeline: an association list whose keys are kept unique by `dictInsert`. -/
abbrev PyDict : Type := List (List Char × List Char)

/-- Python `k in d`. -/
def dictContains (d : PyDict) (k : List Char) : Bool :=
  d.any (fun p => p.1 == k)

/-- Python `d[k]` (as an `Option`; the pipeline only reads keys it has
checked with `in`). -/
def dictGet (d : PyDict) (k : List Char) : Option (List Char) :=
  (d.find? (fun p => p.1 == k)).map (·.2)

/-- Python `d[k] = v`: overwrite the value in place when the key is present
(keeping its position), append a new pair otherwise. -/
def dictInsert (d : PyDict) (k v : List Char) : PyDict :=
  if d.any (fun p => p.1 == k) then
    d.map (fun p => if p.1 == k then (k, v) else p)
  else d ++ [(k, v)]

/-! ## Document extraction (src/src/docx_import.py) -/

/-- `_safe_header`: lower-case and trim a header cell (the `or ""` guard is
the identity on string-valued cells). -/
def safeHeader (h : List Char) : List Char :=
  pyLower (pyStrip h)

/-- `_str`: trim a cell value (the `None` guard is the identity on
string-valued cells). -/
def pyStr (v : List Char) : List Char :=
  pyStrip v

/-- The synthetic key `f"col{i}"` used when a row has more cells than there
are headers. -/
def colKey (i : Nat) : List Char :=
  ("col").toList ++ natToStr i

/-- The key of cell `i`: `headers[i] if i < len(headers) else f"col{i}"`. -/
def rowKey (headers : List (List Char)) (i : Nat) : List Char :=
  headers.getD i (colKey i)

/-- The dict comprehension of `extract_tables_as_dicts`:
`{headers[i] if i < len(headers) else f"col{i}": _str(cells[i]) for i in range(len(cells))}`. -/
def buildRow (headers : List (List Char)) (cells : List (List Char)) : PyDict :=
  (List.range cells.length).foldl
    (fun d i => dictInsert d (rowKey headers i) (pyStr ((cells.get? i).getD []))) []

/-- A document table: its rows, each a list of cell texts. -/
abbrev DocTable : Type := List (List (List Char))

/-- The per-table body of `extract_tables_as_dicts`: `none` when the table is
skipped (`continue`), `some rows` when its row dicts are appended.  The
header row is `tbl.rows[0]`, normalised by `_safe_header`; the table is
skipped when it has fewer than two rows, when no normalised header is truthy
(`if not any(headers)`), or when the built row list is empty (`if rows`). -/
def extractTable (tbl : DocTable) : Option (List PyDict) :=
  if tbl.length < 2 then none
  else if ((tbl.headD []).map safeHeader).any (fun h => !h.isEmpty) then
    if ((tbl.drop 1).map (fun r => buildRow ((tbl.headD []).map safeHeader) r)).isEmpty
    then none
    else some ((tbl.drop 1).map (fun r => buildRow ((tbl.headD []).map safeHeader) r))
  else none

/-- `extract_tables_as_dicts` over the document's table list. -/
def extract_tables_as_dicts (tables : List DocTable) : List (List PyDict) :=
  tables.filterMap extractTable

/-! ## Row-to-entry mapping (src/src/docx_import.py) -/

/-- A canonical entry.  `date_added` is the wall-clock stamp
`datetime.utcnow().isoformat(...) + "Z"` and lies outside this pure model;
no claim refers to it. -/
structure Entry where
  word : List Char
  definition : List Char
  notes : List Char
  tags : List (List Char)
  source : List Char
  timestamp : List Char
deriving DecidableEq

/-- `header_aliases["word"]`. -/
def wordAliases : List (List Char) :=
  [("word").toList, ("term").toList, ("vocabulary").toList, ("entry").toList]

/-- `header_aliases["definition"]`. -/
def definitionAliases : List (List Char) :=
  [("definition").toList, ("meaning").toList, ("gloss").toList]

/-- `header_aliases["notes"]`. -/
def notesAliases : List (List Char) :=
  [("notes").toList, ("context").toList, ("example").toList, ("examples").toList]

/-- `header_aliases["tags"]`. -/
def tagsAliases : List (List Char) :=
  [("tags").toList, ("label").toList, ("labels").toList]

/-- `header_aliases["source"]`. -/
def sourceAliases : List (List Char) :=
  [("source").toList, ("class").toList, ("course").toList]

/-- `header_aliases["timestamp"]`. -/
def timestampAliases : List (List Char) :=
  [("timestamp").toList, ("time").toList, ("t").toList]

/-- The inner `pick` of `map_row_to_entry`: return `_str(row[k])` for the
first alias `k` with `k in row and row[k]`, else `""`.  Note that the
truthiness test is on the raw value, before `_str` trims it. -/
def pickField (row : PyDict) : List (List Char) → List Char
  | [] => []
  | k :: ks =>
    match dictGet row k with
    | some v => if v.isEmpty then pickField row ks else pyStr v
    | none => pickField row ks

/-- The apostrophe character (`chr 39`). -/
def squote : Char := Char.ofNat 39

/-- The tag-string coercion of `map_row_to_entry`: bracket-delimited strings
are stripped of brackets and comma-split with quote/space trimming, anything
else is comma-split with whitespace trimming; blank pieces are dropped. -/
def parseTagsStr (ts : List Char) : List (List Char) :=
  if ts.head? = some '[' then
    ((splitSep ',' (pyStripSet ['[', ']'] ts)).filter
        (fun t => !(pyStrip t).isEmpty)).map (pyStripSet [' ', squote, '"'])
  else
    ((splitSep ',' ts).filter (fun t => !(pyStrip t).isEmpty)).map pyStrip

/-- The tag-deduplication loop of `map_row_to_entry`: keep a trimmed tag when
it is nonempty and its lower-casing has not been seen. -/
def normTags (seen : List (List Char)) : List (List Char) → List (List Char)
  | [] => []
  | t :: ts =>
    let tt := pyStrip t
    if !tt.isEmpty && !(seen.contains (pyLower tt)) then
      tt :: normTags (pyLower tt :: seen) ts
    else normTags seen ts

/-- `map_row_to_entry` from `src/src/docx_import.py` (minus the `date_added`
wall-clock stamp, see `Entry`). -/
def map_row_to_entry (row : PyDict) (defaultTags : List (List Char))
    (defaultSource : List Char) : Entry :=
  let word := pickField row wordAliases
  let defn := pickField row definitionAliases
  let notes := pickField row notesAliases
  let tagsStr := pickField row tagsAliases
  let source := pickField row sourceAliases
  let timestamp := pickField row timestampAliases
  let tags := defaultTags ++ (if tagsStr.isEmpty then [] else parseTagsStr tagsStr)
  { word := word
    definition := defn
    notes := notes
    tags := normTags [] tags
    source := if source.isEmpty then defaultSource else source
    timestamp := timestamp }

/-! ## The bulk-import merge (src/app.py, "Import from Tables" handler) -/

/-- The inline merge of the "Import from Tables" handler:
`existing = {(e["word"] or "").lower() for e in entries}` followed by
`[e for e in new_entries if e["word"].lower() not in existing]`, appended to
the existing collection (`(w or "")` is the identity on string words). -/
def importBatch (existing incoming : List Entry) : List Entry :=
  let existingWords := existing.map (fun e => pyLower e.word)
  existing ++ incoming.filter (fun e => !(existingWords.contains (pyLower e.word)))

/-! ## Store loading (src/src/storage_json.py) -/

/-- The outcome of `json.load` on the store file's contents. -/
inductive JsonParse where
  | ok (entries : List Entry) : JsonParse
  | decodeError : JsonParse
deriving DecidableEq

/-- What `load_entries` does: return a collection or let an exception
propagate. -/
inductive LoadResult where
  | ok (entries : List Entry) : LoadResult
  | raised : LoadResult
deriving DecidableEq

/-- `load_entries` from `src/src/storage_json.py`: the store is `none` when
`JSON_PATH` does not exist, otherwise `some` of the `json.load` outcome; a
`JSONDecodeError` is caught and turned into the empty collection. -/
def load_entries : Option JsonParse → LoadResult
  | none => .ok []
  | some (.ok es) => .ok es
  | some .decodeError => .ok []

/-! ## Specification-side definitions and concrete data used by the claims -/

/-- The raw value of key `k` in `row` (the empty string when the key is
absent, matching Python's falsiness test `k in row and row[k]`). -/
def rawVal (row : PyDict) (k : List Char) : List Char :=
  (dictGet row k).getD []

/-- Field resolution as the specification words it: the first alias present
in the row with a non-empty raw value provides the field's value (trimmed);
otherwise the field is empty. -/
def resolveField (row : PyDict) (aliases : List (List Char)) : List Char :=
  match aliases.find? (fun k => !(rawVal row k).isEmpty) with
  | some k => pyStrip (rawVal row k)
  | none => []

/-- The merge as the specification states it, for comparison with
`importBatch`: the existing-word set is built from trimmed, lower-cased
words, and incoming words are trimmed before the membership test. -/
def importBatchTrimSpec (existing incoming : List Entry) : List Entry :=
  existing ++ incoming.filter (fun e =>
    !((existing.map (fun e0 => pyLower (pyStrip e0.word))).contains
        (pyLower (pyStrip e.word))))

/-- A two-row document table whose single data cell trims to the empty
string. -/
def twTable : DocTable := [[("word").toList], [(" ").toList]]

/-- An entry whose word carries a trailing space. -/
def entryCatPad : Entry :=
  { word := ("Cat ").toList, definition := [], notes := [], tags := [],
    source := [], timestamp := [] }

/-- An entry whose word is the same word, trimmed and lower-cased. -/
def entryCat : Entry :=
  { word := ("cat").toList, definition := [], notes := [], tags := [],
    source := [], timestamp := [] }

/-! ## Scratch sanity checks (mirroring the Python behaviour) -/

example : normalize_timestamp ("90").toList = ("0:01:30").toList := by decide
example : normalize_timestamp ("5:09").toList = ("00:05:09").toList := by decide
example : normalize_timestamp ("01:02:03").toList = ("01:02:03").toList := by decide
example : normalize_timestamp ([' '] : List Char) = ['0', '0'] := by decide
example : normalize_timestamp ([] : List Char) = [] := by decide
example : normalize_timestamp ("86400").toList = ("1 day, 0:00:00").toList := by decide
example : normalize_timestamp ("1:2:3:4").toList = ("02:03:04").toList := by decide

/-! ## Lemmas about the string primitives -/

theorem splitSep_ne_nil (sep : Char) (l : List Char) : splitSep sep l ≠ [] := by
  induction l with
  | nil => simp [splitSep]
  | cons c cs ih =>
    rcases h : splitSep sep cs with _ | ⟨p, ps⟩
    · exact absurd h ih
    · by_cases hc : c = sep <;> simp [splitSep, h, hc, consHead]

theorem length_splitSep (sep : Char) (l : List Char) :
    (splitSep sep l).length = l.count sep + 1 := by
  induction l with
  | nil => simp [splitSep]
  | cons c cs ih =>
    rcases h : splitSep sep cs with _ | ⟨p, ps⟩
    · exact absurd h (splitSep_ne_nil sep cs)
    · rw [h] at ih
      by_cases hc : c = sep
      · subst hc
        simp [splitSep, h, List.count_cons_self]
        simp only [List.length_cons] at ih
        omega
      · simp only [splitSep, if_neg hc, h, consHead, List.length_cons,
          List.count_cons_of_ne (fun hcs => hc hcs.symm)]
        simpa using ih

theorem not_mem_of_mem_splitSep (sep : Char) (l : List Char) (p : List Char)
    (hp : p ∈ splitSep sep l) : sep ∉ p := by
  induction l generalizing p with
  | nil =>
    simp [splitSep] at hp
    subst hp
    simp
  | cons c cs ih =>
    rcases h : splitSep sep cs with _ | ⟨q, qs⟩
    · exact absurd h (splitSep_ne_nil sep cs)
    · rw [splitSep, h] at hp
      by_cases hc : c = sep
      · rw [if_pos hc] at hp
        rcases List.mem_cons.mp hp with rfl | hp
        · simp
        · exact ih p (h ▸ hp)
      · rw [if_neg hc] at hp
        simp only [consHead] at hp
        rcases List.mem_cons.mp hp with rfl | hp
        · intro hm
          rcases List.mem_cons.mp hm with rfl | hm
          · exact hc rfl
          · exact ih q (h ▸ List.mem_cons_self q qs) hm
        · exact ih p (h ▸ List.mem_cons_of_mem q hp)

theorem splitSep_append_cons (sep : Char) (xs ys : List Char) (hx : sep ∉ xs) :
    splitSep sep (xs ++ sep :: ys) = xs :: splitSep sep ys := by
  induction xs with
  | nil => simp [splitSep]
  | cons x xs ih =>
    have hxs : sep ∉ xs := fun h => hx (List.mem_cons_of_mem x h)
    have hxne : x ≠ sep := fun h => hx (h ▸ List.mem_cons_self x xs)
    rw [List.cons_append, splitSep, if_neg hxne, ih hxs, consHead]

theorem splitSep_of_not_mem (sep : Char) (l : List Char) (h : sep ∉ l) :
    splitSep sep l = [l] := by
  induction l with
  | nil => rfl
  | cons c cs ih =>
    have hcs : sep ∉ cs := fun hm => h (List.mem_cons_of_mem c hm)
    have hc : c ≠ sep := fun hm => h (hm ▸ List.mem_cons_self c cs)
    rw [splitSep, if_neg hc, ih hcs, consHead]

theorem count_joinSep (sep : Char) (ps : List (List Char)) (hne : ps ≠ [])
    (hfree : ∀ p ∈ ps, sep ∉ p) :
    (joinSep sep ps).count sep = ps.length - 1 := by
  induction ps with
  | nil => exact absurd rfl hne
  | cons p ps ih =>
    cases ps with
    | nil =>
      simp only [joinSep, List.length_cons, List.length_nil]
      rw [List.count_eq_zero]
      exact hfree p (List.mem_cons_self p [])
    | cons q qs =>
      have hstep : joinSep sep (p :: q :: qs) = p ++ sep :: joinSep sep (q :: qs) := rfl
      rw [hstep, List.count_append, List.count_cons_self]
      have h1 : p.count sep = 0 :=
        List.count_eq_zero.mpr (hfree p (List.mem_cons_self p (q :: qs)))
      have h2 := ih (by simp) (fun r hr => hfree r (List.mem_cons_of_mem p hr))
      simp only [List.length_cons] at h2 ⊢
      omega

theorem zfill_of_le_length (w : Nat) (s : List Char) (h : w ≤ s.length) :
    zfill w s = s := by
  simp [zfill, h]

theorem mem_zfill (w : Nat) (s : List Char) (c : Char) (hc : c ∈ zfill w s) :
    c = '0' ∨ c ∈ s := by
  unfold zfill at hc
  by_cases h : w ≤ s.length
  · rw [if_pos h] at hc
    exact Or.inr hc
  · rw [if_neg h] at hc
    cases s with
    | nil =>
      simp only at hc
      exact Or.inl (List.eq_of_mem_replicate hc)
    | cons a rest =>
      simp only at hc
      by_cases hsign : a = '+' ∨ a = '-'
      · rw [if_pos hsign] at hc
        rcases List.mem_cons.mp hc with rfl | hc
        · exact Or.inr (List.mem_cons_self _ _)
        · rcases List.mem_append.mp hc with hc | hc
          · exact Or.inl (List.eq_of_mem_replicate hc)
          · exact Or.inr (List.mem_cons_of_mem _ hc)
      · rw [if_neg hsign] at hc
        rcases List.mem_append.mp hc with hc | hc
        · exact Or.inl (List.eq_of_mem_replicate hc)
        · exact Or.inr hc

theorem digitChar_isDigit (n : Nat) (h : n < 10) : (Nat.digitChar n).isDigit = true := by
  interval_cases n <;> decide

theorem natToStrAux_digit (fuel n : Nat) (c : Char) (hc : c ∈ natToStrAux fuel n) :
    c.isDigit = true := by
  induction fuel generalizing n with
  | zero => simp [natToStrAux] at hc
  | succ fuel ih =>
    simp only [natToStrAux] at hc
    by_cases h : n < 10
    · rw [if_pos h] at hc
      rcases List.mem_singleton.mp hc with rfl
      exact digitChar_isDigit n h
    · rw [if_neg h] at hc
      rcases List.mem_append.mp hc with hc | hc
      · exact ih (n / 10) hc
      · rcases List.mem_singleton.mp hc with rfl
        exact digitChar_isDigit (n % 10) (Nat.mod_lt n (by omega))

theorem count_colon_natToStr (n : Nat) : (natToStr n).count ':' = 0 := by
  rw [List.count_eq_zero]
  intro hm
  have := natToStrAux_digit (n + 1) n ':' hm
  exact absurd this (by decide)

theorem count_colon_pad02 (n : Nat) : (pad02 n).count ':' = 0 := by
  unfold pad02
  by_cases h : n < 10
  · rw [if_pos h, List.count_cons_of_ne (by decide), count_colon_natToStr]
  · rw [if_neg h, count_colon_natToStr]

theorem count_colon_timedeltaStr (n : Nat) : (timedeltaStr n).count ':' = 2 := by
  unfold timedeltaStr
  by_cases h : n / 86400 = 0
  · simp [h, List.count_append, List.count_cons_self,
      count_colon_natToStr, count_colon_pad02]
  · by_cases h1 : n / 86400 = 1 <;>
      simp [h, h1, List.count_append, List.count_cons_self,
        count_colon_natToStr, count_colon_pad02]

theorem dropWhile_eq_nil_of_forall {p : Char → Bool} {l : List Char}
    (h : ∀ c ∈ l, p c = true) : l.dropWhile p = [] := by
  induction l with
  | nil => rfl
  | cons c cs ih =>
    rw [List.dropWhile_cons, if_pos (h c (List.mem_cons_self c cs))]
    exact ih (fun x hx => h x (List.mem_cons_of_mem c hx))

theorem dropWhile_eq_self_of_forall {p : Char → Bool} {l : List Char}
    (h : ∀ c ∈ l, p c = false) : l.dropWhile p = l := by
  cases l with
  | nil => rfl
  | cons c cs => rw [List.dropWhile_cons, if_neg (by simp [h c (List.mem_cons_self c cs)])]

theorem pyStrip_of_all_space (s : List Char) (h : ∀ c ∈ s, pyIsSpace c = true) :
    pyStrip s = [] := by
  unfold pyStrip
  rw [dropWhile_eq_nil_of_forall h]
  rfl

theorem pyStrip_of_no_space (s : List Char) (h : ∀ c ∈ s, pyIsSpace c = false) :
    pyStrip s = s := by
  unfold pyStrip
  rw [dropWhile_eq_self_of_forall h,
    dropWhile_eq_self_of_forall (fun c hc => h c (List.mem_reverse.mp hc)),
    List.reverse_reverse]

theorem isDigit_not_space (c : Char) (h : c.isDigit = true) : pyIsSpace c = false := by
  cases hps : pyIsSpace c with
  | false => rfl
  | true =>
    exfalso
    simp only [pyIsSpace, Bool.or_eq_true, beq_iff_eq] at hps
    rcases hps with ((((h1 | h1) | h1) | h1) | h1) | h1 <;> subst h1 <;>
      exact absurd h (by decide)

theorem isEmpty_false_of_ne_nil {α : Type _} {s : List α} (h : s ≠ []) : s.isEmpty = false := by
  cases s with
  | nil => exact absurd rfl h
  | cons a l => rfl

theorem pyIsDigitStr_of (s : List Char) (h1 : s ≠ [])
    (h2 : ∀ c ∈ s, c.isDigit = true) : pyIsDigitStr s = true := by
  simp only [pyIsDigitStr, Bool.and_eq_true, Bool.not_eq_true', List.all_eq_true]
  exact ⟨isEmpty_false_of_ne_nil h1, h2⟩

theorem pyIsDigitStr_false_of_mem (s : List Char) (c : Char) (hc : c ∈ s)
    (hd : c.isDigit = false) : pyIsDigitStr s = false := by
  cases h : pyIsDigitStr s with
  | false => rfl
  | true =>
    exfalso
    simp only [pyIsDigitStr, Bool.and_eq_true, List.all_eq_true] at h
    rw [h.2 c hc] at hd
    simp at hd

theorem count_colon_nonDigitBranch (t : List Char) :
    (nonDigitBranch t).count ':' ≤ 2 := by
  unfold nonDigitBranch
  set parts := (splitSep ':' t).map (zfill 2) with hparts
  set parts2 := (if parts.length = 2 then zeroZero :: parts else parts) with hparts2
  have hplen : 1 ≤ parts.length := by
    rw [hparts, List.length_map]
    exact List.length_pos.mpr (splitSep_ne_nil ':' t)
  have hp2len : 1 ≤ parts2.length := by
    rw [hparts2]
    by_cases h2 : parts.length = 2
    · simp [h2]
    · simp only [if_neg h2]
      omega
  have hfree : ∀ p ∈ parts2.drop (parts2.length - 3), ':' ∉ p := by
    intro p hp
    have hp2 : p ∈ parts2 := List.mem_of_mem_drop hp
    rw [hparts2] at hp2
    have hpp : p ∈ parts ∨ p = zeroZero := by
      by_cases h2 : parts.length = 2
      · rw [if_pos h2] at hp2
        rcases List.mem_cons.mp hp2 with rfl | hp2
        · exact Or.inr rfl
        · exact Or.inl hp2
      · rw [if_neg h2] at hp2
        exact Or.inl hp2
    rcases hpp with hpp | rfl
    · rw [hparts] at hpp
      obtain ⟨r, hr, rfl⟩ := List.mem_map.mp hpp
      intro hmem
      rcases mem_zfill 2 r ':' hmem with h0 | h0
      · exact absurd h0 (by decide)
      · exact not_mem_of_mem_splitSep ':' t r hr h0
    · decide
  have hdlen : (parts2.drop (parts2.length - 3)).length ≤ 3 := by
    rw [List.length_drop]
    omega
  have hdne : parts2.drop (parts2.length - 3) ≠ [] := by
    have h1 : 1 ≤ (parts2.drop (parts2.length - 3)).length := by
      rw [List.length_drop]
      omega
    intro h0
    rw [h0] at h1
    simp at h1
  rw [count_joinSep ':' _ hdne hfree]
  omega

/-! ## Claims about `normalize_timestamp` -/

/-- C3, counterexample to the claim as stated: on input `"90"` the output
`"0:01:30"` has a one-character hours field, and on the nonempty whitespace
input `" "` the output `"00"` is a single field — so the output is not always
empty or two-or-three fields of exactly two characters each. -/
theorem normalize_timestamp_fieldshape_counterexample :
    (¬ (normalize_timestamp ("90").toList = [] ∨
        (((splitSep ':' (normalize_timestamp ("90").toList)).length = 2 ∨
            (splitSep ':' (normalize_timestamp ("90").toList)).length = 3) ∧
          ∀ p ∈ splitSep ':' (normalize_timestamp ("90").toList), p.length = 2))) ∧
    (¬ (normalize_timestamp [' '] = [] ∨
        (((splitSep ':' (normalize_timestamp [' '])).length = 2 ∨
            (splitSep ':' (normalize_timestamp [' '])).length = 3) ∧
          ∀ p ∈ splitSep ':' (normalize_timestamp [' ']), p.length = 2))) := by
  decide

/-- C3 (amended): for every input string, the output of `normalize_timestamp`
splits on `':'` into at least one and at most three fields; the exact field
count (two or three) and the two-character field width of the original claim
do not hold in general. -/
theorem normalize_timestamp_at_most_three_fields (s : List Char) :
    1 ≤ (splitSep ':' (normalize_timestamp s)).length ∧
      (splitSep ':' (normalize_timestamp s)).length ≤ 3 := by
  refine ⟨List.length_pos.mpr (splitSep_ne_nil ':' (normalize_timestamp s)), ?_⟩
  rw [length_splitSep]
  unfold normalize_timestamp
  by_cases h1 : s.isEmpty
  · simp [h1]
  · rw [if_neg h1]
    by_cases h2 : pyIsDigitStr (pyStrip s)
    · rw [if_pos h2, count_colon_timedeltaStr]
    · rw [if_neg h2]
      have := count_colon_nonDigitBranch (pyStrip s)
      omega

/-- C4, counterexample to the claim as stated: the single-space input is
whitespace-only, yet `normalize_timestamp` returns `"00"` rather than the
empty string (the emptiness test runs before stripping). -/
theorem normalize_timestamp_whitespace_counterexample :
    (∀ c ∈ ([' '] : List Char), pyIsSpace c = true) ∧
      normalize_timestamp [' '] ≠ [] := by
  decide

/-- C4 (amended): `normalize_timestamp` returns the empty string on the empty
input; on a nonempty whitespace-only input it instead returns `"00"`. -/
theorem normalize_timestamp_whitespace (s : List Char)
    (h : ∀ c ∈ s, pyIsSpace c = true) :
    normalize_timestamp s = if s.isEmpty then [] else zeroZero := by
  cases he : s.isEmpty with
  | true => simp [normalize_timestamp, he]
  | false =>
    unfold normalize_timestamp
    rw [pyStrip_of_all_space s h, he]
    decide

/-- Witness for `normalize_timestamp_whitespace` at the single-space input. -/
theorem normalize_timestamp_whitespace_witness :
    (∀ c ∈ ([' '] : List Char), pyIsSpace c = true) ∧
      normalize_timestamp [' '] = if ([' '] : List Char).isEmpty then [] else zeroZero :=
  ⟨by decide, normalize_timestamp_whitespace [' '] (by decide)⟩

/-- C5 (confirmed): for every nonempty string of decimal digits (Python's
`isdigit` requires nonemptiness), the output of `normalize_timestamp`
contains exactly two `':'` characters. -/
theorem normalize_timestamp_digits_two_colons (s : List Char) (h1 : s ≠ [])
    (h2 : ∀ c ∈ s, c.isDigit = true) :
    (normalize_timestamp s).count ':' = 2 := by
  have hstrip : pyStrip s = s :=
    pyStrip_of_no_space s (fun c hc => isDigit_not_space c (h2 c hc))
  have hdig : pyIsDigitStr (pyStrip s) = true := by
    rw [hstrip]
    exact pyIsDigitStr_of s h1 h2
  unfold normalize_timestamp
  rw [isEmpty_false_of_ne_nil h1, if_neg (by simp), if_pos hdig,
    count_colon_timedeltaStr]

/-- Witness for `normalize_timestamp_digits_two_colons` at the input `"90"`. -/
theorem normalize_timestamp_digits_two_colons_witness :
    (("90").toList ≠ [] ∧ ∀ c ∈ ("90").toList, c.isDigit = true) ∧
      (normalize_timestamp ("90").toList).count ':' = 2 :=
  ⟨⟨by decide, by decide⟩,
    normalize_timestamp_digits_two_colons ("90").toList (by decide) (by decide)⟩

/-- C6 (confirmed): `normalize_timestamp` returns any string of three
colon-separated two-character colon-free fields with no surrounding
whitespace unchanged. -/
theorem normalize_timestamp_idempotent_hhmmss (a b c : List Char)
    (ha : a.length = 2) (hb : b.length = 2) (hc : c.length = 2)
    (na : ':' ∉ a) (nb : ':' ∉ b) (nc : ':' ∉ c)
    (hstrip : pyStrip (a ++ ':' :: (b ++ ':' :: c)) = a ++ ':' :: (b ++ ':' :: c)) :
    normalize_timestamp (a ++ ':' :: (b ++ ':' :: c)) = a ++ ':' :: (b ++ ':' :: c) := by
  have hne : (a ++ ':' :: (b ++ ':' :: c)) ≠ [] := by simp
  have hmem : ':' ∈ a ++ ':' :: (b ++ ':' :: c) := by simp
  have hdig : pyIsDigitStr (a ++ ':' :: (b ++ ':' :: c)) = false :=
    pyIsDigitStr_false_of_mem _ ':' hmem (by decide)
  unfold normalize_timestamp
  rw [hstrip, isEmpty_false_of_ne_nil hne, if_neg (by simp), hdig, if_neg (by simp)]
  unfold nonDigitBranch
  rw [splitSep_append_cons ':' a _ na, splitSep_append_cons ':' b _ nb,
    splitSep_of_not_mem ':' c nc]
  have za : zfill 2 a = a := zfill_of_le_length 2 a (by omega)
  have zb : zfill 2 b = b := zfill_of_le_length 2 b (by omega)
  have zc : zfill 2 c = c := zfill_of_le_length 2 c (by omega)
  simp [za, zb, zc, joinSep]

/-- Witness for `normalize_timestamp_idempotent_hhmmss` at `"01:02:03"`. -/
theorem normalize_timestamp_idempotent_hhmmss_witness :
    normalize_timestamp (['0', '1'] ++ ':' :: (['0', '2'] ++ ':' :: ['0', '3']))
      = ['0', '1'] ++ ':' :: (['0', '2'] ++ ':' :: ['0', '3']) :=
  normalize_timestamp_idempotent_hhmmss ['0', '1'] ['0', '2'] ['0', '3']
    (by decide) (by decide) (by decide) (by decide) (by decide) (by decide) (by decide)

/-! More scratch checks. -/

example :
    pickField [(("timestamp").toList, (" ").toList), (("time").toList, ("5").toList)]
      timestampAliases = [] := by decide

example :
    (map_row_to_entry [(("term").toList, ("Glycolysis").toList)] [("bio").toList]
      ("BIO101").toList).word = ("Glycolysis").toList := by decide

example :
    buildRow [("word").toList] [(" ").toList] = [(("word").toList, [])] := by decide

example :
    extract_tables_as_dicts [[[("word").toList], [(" ").toList]]]
      = [[[(("word").toList, [])]]] := by decide

/-! ## Lemmas about the dict model and table extraction -/

theorem any_congr_mem {α : Type} (l : List α) (p q : α → Bool)
    (h : ∀ a ∈ l, p a = q a) : l.any p = l.any q := by
  induction l with
  | nil => rfl
  | cons a l ih =>
    simp only [List.any_cons]
    rw [h a (List.mem_cons_self a l), ih (fun x hx => h x (List.mem_cons_of_mem a hx))]

theorem dictContains_insert (d : PyDict) (k v k' : List Char) :
    dictContains (dictInsert d k v) k' = (k' == k || dictContains d k') := by
  unfold dictInsert dictContains
  by_cases h : d.any (fun p => p.1 == k)
  · rw [if_pos h, List.any_map]
    have hcong : ∀ p ∈ d,
        ((fun p => p.1 == k') ∘ fun p => if p.1 == k then (k, v) else p) p
          = (fun p : List Char × List Char => p.1 == k') p := by
      intro p _
      by_cases hp : p.1 == k
      · have hp' : p.1 = k := by simpa [beq_iff_eq] using hp
        simp [Function.comp, hp, hp']
      · simp [Function.comp, hp]
    rw [any_congr_mem _ _ _ hcong]
    by_cases hk : k' == k
    · have hk' : k' = k := by simpa [beq_iff_eq] using hk
      subst hk'
      simp [h, hk]
    · simp [hk]
  · rw [if_neg h, List.any_append]
    simp only [List.any_cons, List.any_nil, Bool.or_false]
    have hsymm : (k == k') = (k' == k) := by
      by_cases hk : k = k'
      · simp [hk]
      · have hk' : ¬ k' = k := fun hh => hk hh.symm
        simp [hk, hk']
    rw [hsymm]
    exact Bool.or_comm _ _

theorem dictContains_foldl_insert (l : List Nat) (f g : Nat → List Char)
    (d : PyDict) (k : List Char) :
    dictContains (l.foldl (fun d i => dictInsert d (f i) (g i)) d) k
      = (dictContains d k || l.any (fun i => k == f i)) := by
  induction l generalizing d with
  | nil => simp
  | cons i l ih =>
    simp only [List.foldl_cons, List.any_cons]
    rw [ih, dictContains_insert]
    cases k == f i <;> cases dictContains d k <;> simp

theorem dictContains_buildRow (headers cells : List (List Char)) (k : List Char) :
    dictContains (buildRow headers cells) k
      = (List.range cells.length).any (fun i => k == rowKey headers i) := by
  unfold buildRow
  rw [dictContains_foldl_insert]
  simp [dictContains]

theorem rowKey_range_eq_take (headers : List (List Char)) (n : Nat)
    (h : n ≤ headers.length) :
    (List.range n).map (fun i => rowKey headers i) = headers.take n := by
  apply List.ext_getElem
  · simp
    omega
  · intro i h1 h2
    simp only [List.getElem_map, List.getElem_range, List.getElem_take]
    have hi : i < headers.length := by
      simp at h1
      omega
    unfold rowKey
    rw [List.getD_eq_getElem _ _ hi]

/-! ## Claims about table extraction -/

/-- C10 (confirmed): for a row with fewer cells than the header row, the
RowMap built by the extractor's dict comprehension contains a key exactly
when it is one of the headers that have a corresponding cell; the remaining
headers are entirely absent (not mapped to empty strings). -/
theorem buildRow_keys_iff (headers cells : List (List Char)) (k : List Char)
    (h : cells.length < headers.length) :
    dictContains (buildRow headers cells) k = true ↔ k ∈ headers.take cells.length := by
  rw [dictContains_buildRow, ← rowKey_range_eq_take headers cells.length (le_of_lt h)]
  simp only [List.any_eq_true, List.mem_range, beq_iff_eq, List.mem_map]
  constructor
  · rintro ⟨i, hi, rfl⟩
    exact ⟨i, hi, rfl⟩
  · rintro ⟨i, hi, rfl⟩
    exact ⟨i, hi, rfl⟩

/-- Witness for `buildRow_keys_iff`: headers `["a", "b"]` with the single
cell `["x"]` — the key `"a"` is present, `"b"` is absent. -/
theorem buildRow_keys_iff_witness :
    ([("x").toList] : List (List Char)).length
        < ([("a").toList, ("b").toList] : List (List Char)).length ∧
      (dictContains (buildRow [("a").toList, ("b").toList] [("x").toList])
          ("b").toList = true
        ↔ ("b").toList ∈ ([("a").toList, ("b").toList] : List (List Char)).take
            ([("x").toList] : List (List Char)).length) :=
  ⟨by decide, buildRow_keys_iff [("a").toList, ("b").toList] [("x").toList]
    ("b").toList (by decide)⟩

/-- C7, counterexample to the claim as stated: `twTable` has two rows, a
truthy header row, and its only data row's cells all trim to empty — yet the
table still contributes a (one-element) row list to the extraction result,
with empty-string values, instead of yielding no output. -/
theorem extract_empty_rows_counterexample :
    (∀ r ∈ twTable.drop 1, ∀ cell ∈ r, pyStrip cell = []) ∧
      2 ≤ twTable.length ∧
      ((twTable.headD []).map safeHeader).any (fun h => !h.isEmpty) = true ∧
      extract_tables_as_dicts [twTable] = [[[(("word").toList, [])]]] := by
  decide

/-- C7 (amended): a table with at least two rows and a not-all-empty header
row always contributes exactly one RowMap per data row to the extraction
result — even when every data cell trims to the empty string — so it never
yields no output; only tables with fewer than two rows or an all-empty
header row are skipped. -/
theorem extract_keeps_all_data_rows (doc : List DocTable) (tbl : DocTable)
    (hmem : tbl ∈ doc) (h2 : 2 ≤ tbl.length)
    (hh : ((tbl.headD []).map safeHeader).any (fun h => !h.isEmpty) = true) :
    ((tbl.drop 1).map (fun r => buildRow ((tbl.headD []).map safeHeader) r))
        ∈ extract_tables_as_dicts doc ∧
      ((tbl.drop 1).map (fun r => buildRow ((tbl.headD []).map safeHeader) r)) ≠ [] := by
  have hlen : ((tbl.drop 1).map
      (fun r => buildRow ((tbl.headD []).map safeHeader) r)).length = tbl.length - 1 := by
    simp
  have hne : ((tbl.drop 1).map
      (fun r => buildRow ((tbl.headD []).map safeHeader) r)) ≠ [] := by
    intro h0
    rw [h0] at hlen
    simp at hlen
    omega
  refine ⟨List.mem_filterMap.mpr ⟨tbl, hmem, ?_⟩, hne⟩
  unfold extractTable
  have hcond : ¬ ((tbl.drop 1).map
      (fun r => buildRow ((tbl.headD []).map safeHeader) r)).isEmpty = true := by
    rw [isEmpty_false_of_ne_nil hne]
    simp
  rw [if_neg (show ¬ tbl.length < 2 by omega), if_pos hh, if_neg hcond]

/-- Witness for `extract_keeps_all_data_rows` at the concrete table
`twTable` inside a one-table document. -/
theorem extract_keeps_all_data_rows_witness :
    ((twTable.drop 1).map (fun r => buildRow ((twTable.headD []).map safeHeader) r))
        ∈ extract_tables_as_dicts [twTable] ∧
      ((twTable.drop 1).map
        (fun r => buildRow ((twTable.headD []).map safeHeader) r)) ≠ [] :=
  extract_keeps_all_data_rows [twTable] twTable (by decide) (by decide) (by decide)

/-! ## Claims about the row-to-entry mapper -/

theorem pickField_eq_resolveField (row : PyDict) (ks : List (List Char)) :
    pickField row ks = resolveField row ks := by
  induction ks with
  | nil => rfl
  | cons k ks ih =>
    cases hv : dictGet row k with
    | none =>
      have hskip : (fun k => !(rawVal row k).isEmpty) k = false := by
        simp [rawVal, hv]
      rw [pickField, hv, resolveField, List.find?_cons_of_neg _ (by simp [hskip])]
      exact ih
    | some v =>
      by_cases hv2 : v.isEmpty
      · have hskip : (fun k => !(rawVal row k).isEmpty) k = false := by
          simp [rawVal, hv, hv2]
        rw [pickField, hv, resolveField, List.find?_cons_of_neg _ (by simp [hskip])]
        simp only [if_pos hv2]
        exact ih
      · have hkeep : (fun k => !(rawVal row k).isEmpty) k = true := by
          simp [rawVal, hv, hv2]
        rw [pickField, hv, resolveField, List.find?_cons_of_pos _ (by simp [hkeep])]
        simp [hv2, pyStr, rawVal, hv]

/-- C2, counterexample to the claim as stated: on a row whose `timestamp`
cell holds `"90"`, `map_row_to_entry` leaves the timestamp field as `"90"`
rather than the normalized `"0:01:30"` — the mapper does not invoke
`normalize_timestamp`. -/
theorem mapRow_timestamp_not_normalized :
    (map_row_to_entry [(("timestamp").toList, ("90").toList)] [] []).timestamp
        = ("90").toList ∧
      normalize_timestamp
          (pickField [(("timestamp").toList, ("90").toList)] timestampAliases)
        = ("0:01:30").toList ∧
      (map_row_to_entry [(("timestamp").toList, ("90").toList)] [] []).timestamp
        ≠ normalize_timestamp
            (pickField [(("timestamp").toList, ("90").toList)] timestampAliases) := by
  decide

/-- C2 (amended): for every row, default tags and default source, the
timestamp field of the entry returned by `map_row_to_entry` equals the
trimmed raw value resolved from the row's timestamp aliases — with no
normalization applied (`normalize_timestamp` is not invoked by the mapper). -/
theorem mapRow_timestamp_raw (row : PyDict) (dt : List (List Char)) (ds : List Char) :
    (map_row_to_entry row dt ds).timestamp = resolveField row timestampAliases := by
  simp [map_row_to_entry, pickField_eq_resolveField]

/-- C8, counterexample to the claim as stated: in a row whose `timestamp`
cell is the whitespace-only `" "` and whose `time` cell is `"5"`, the
whitespace-only first alias is selected (Python's truthiness test sees a
nonempty raw string) and trims to the empty string, masking the later alias
holding `"5"`. -/
theorem pick_whitespace_masks :
    rawVal [(("timestamp").toList, (" ").toList), (("time").toList, ("5").toList)]
        (("timestamp").toList) = (" ").toList ∧
      rawVal [(("timestamp").toList, (" ").toList), (("time").toList, ("5").toList)]
        (("time").toList) = ("5").toList ∧
      (map_row_to_entry
          [(("timestamp").toList, (" ").toList), (("time").toList, ("5").toList)]
          [] []).timestamp = [] := by
  decide

/-- C8 (amended): for every row, each string field of the entry returned by
`map_row_to_entry` is the trimmed raw value of the first alias in the
field's priority list whose raw value in the row is non-empty (before
trimming), and is empty when no alias has a non-empty raw value; a
whitespace-only raw value is therefore selected — and trims to empty,
masking later aliases; `source` additionally falls back to the caller's
default. -/
theorem mapRow_fields_resolve (row : PyDict) (dt : List (List Char)) (ds : List Char) :
    (map_row_to_entry row dt ds).word = resolveField row wordAliases ∧
      (map_row_to_entry row dt ds).definition = resolveField row definitionAliases ∧
      (map_row_to_entry row dt ds).notes = resolveField row notesAliases ∧
      (map_row_to_entry row dt ds).timestamp = resolveField row timestampAliases ∧
      (map_row_to_entry row dt ds).source =
        (if (resolveField row sourceAliases).isEmpty then ds
          else resolveField row sourceAliases) := by
  simp [map_row_to_entry, pickField_eq_resolveField]

/-! ## Claims about the bulk-import merge -/

theorem not_contains_map_lower (ex : List Entry) (x : List Char) :
    (!((ex.map (fun e => pyLower e.word)).contains x))
      = ex.all (fun e0 => !(x == pyLower e0.word)) := by
  induction ex with
  | nil => rfl
  | cons e ex ih =>
    simp only [List.map_cons, List.contains_cons, List.all_cons, Bool.not_or]
    rw [ih]

/-- C1, counterexample to the claim as stated: with the existing collection
`[entryCatPad]` (word `"Cat "`) and the incoming batch `[entryCat]` (word
`"cat"`), the incoming entry's trimmed, lower-cased word equals the existing
one's, yet the merge keeps it — the code compares lower-cased words without
trimming, so the result differs from the spec-described merge. -/
theorem importBatch_trim_counterexample :
    pyLower (pyStrip entryCat.word) = pyLower (pyStrip entryCatPad.word) ∧
      importBatch [entryCatPad] [entryCat] = [entryCatPad, entryCat] ∧
      importBatchTrimSpec [entryCatPad] [entryCat] = [entryCatPad] := by
  decide

/-- C1 (amended): for every existing collection and incoming batch, the
merge returns the existing entries followed by exactly those incoming
entries whose lower-cased (but not trimmed) word differs from every existing
entry's lower-cased word; relative order of both sequences is preserved and
incoming entries are not deduplicated against each other (the filter
predicate only consults the pre-existing collection). -/
theorem importBatch_lowercase_filter (existing incoming : List Entry) :
    importBatch existing incoming
      = existing ++ incoming.filter
          (fun e => existing.all (fun e0 => !(pyLower e.word == pyLower e0.word))) := by
  show existing ++ incoming.filter
      (fun e => !((existing.map (fun e => pyLower e.word)).contains (pyLower e.word)))
    = existing ++ incoming.filter
        (fun e => existing.all (fun e0 => !(pyLower e.word == pyLower e0.word)))
  congr 1
  apply List.filter_congr
  intro e _
  exact not_contains_map_lower existing (pyLower e.word)

/-! ## Claim about store loading -/

/-- C9 (confirmed): when the store file exists but `json.load` fails with a
decode error, `load_entries` returns the empty collection; moreover
`load_entries` never lets an exception propagate, whatever the store state. -/
theorem load_entries_corrupt_store :
    load_entries (some JsonParse.decodeError) = LoadResult.ok [] ∧
      ∀ store : Option JsonParse, load_entries store ≠ LoadResult.raised := by
  refine ⟨rfl, ?_⟩
  intro store
  rcases store with _ | (_ | _) <;> simp [load_entries]

end FieldBook
